import Mathlib

/-!
Shallow embedding of the AutoNav_Runner control stack
(`src/systems/state.py`, `src/systems/subsystem.py`, `src/systems/vpr.py`,
`src/systems/inference.py`, `src/controller.py`, `src/systems/navigator.py`)
and proofs of the behavioural claims about it.

Machine floats are modelled by `ℚ`, Python strings by `String`,
queues by lists / `Option` (capacity 1), and external libraries
(the neural policy, the embedding model, `networkx`, `math.sin/cos`)
by abstract function parameters.
-/

namespace AutoNav

/-! ## Shared state (`src/systems/state.py`) -/

/-- Python values as they can appear in a `SharedState.put` keyword argument:
ints, floats, bools, strings, lists, dicts, and any other object
(represented by the string `str(v)` would produce for it). -/
inductive PyVal : Type where
  | pyInt (n : ℤ)
  | pyFloat (q : ℚ)
  | pyBool (b : Bool)
  | pyStr (s : String)
  | pyList (l : List String)
  | pyDict (d : List (String × String))
  | pyOther (s : String)
deriving DecidableEq, Repr

/-- `_coerce` inside `SharedState.put`: `isinstance(v, (int, float))` (which
includes `bool`) maps to `float(v)`; `list`/`dict` pass through unchanged;
anything else becomes `str(v)`. -/
def coerce : PyVal → PyVal
  | .pyInt n => .pyFloat n
  | .pyFloat q => .pyFloat q
  | .pyBool b => .pyFloat (if b then 1 else 0)
  | .pyList l => .pyList l
  | .pyDict d => .pyDict d
  | .pyStr s => .pyStr s
  | .pyOther s => .pyStr s

/-- Python dict assignment `d[k] = v`: replace the value at `k` in place if
present (keys of a dict are unique), otherwise append at the end. -/
def setKey {β : Type} (d : List (String × β)) (k : String) (v : β) :
    List (String × β) :=
  match d with
  | [] => [(k, v)]
  | (k', v') :: rest => if k' = k then (k, v) :: rest else (k', v') :: setKey rest k v

/-- Python dict lookup `d[k]` / `d.get(k)`: first binding wins. -/
def lookupKey {β : Type} (d : List (String × β)) (k : String) : Option β :=
  (d.find? (fun p => p.1 == k)).map (fun p => p.2)

/-- One subsystem's entry in the shared map. -/
abbrev Entry := List (String × PyVal)

/-- The whole `SharedState._data` map: subsystem name to its entry. -/
abbrev StateMap := List (String × Entry)

/-- The `safe` dict built by `SharedState.put`: coerce every value, then set
`safe["ts"] = time.time()` (overwriting a caller-supplied `ts`). -/
def putEntry (kv : Entry) (now : ℚ) : Entry :=
  setKey (kv.map (fun p => (p.1, coerce p.2))) "ts" (.pyFloat now)

/-- `SharedState.put(who, **kv)` at wall-clock time `now`: store the coerced,
timestamped entry under `who`, replacing the previous one. -/
def put (data : StateMap) (who : String) (kv : Entry) (now : ℚ) : StateMap :=
  setKey data who (putEntry kv now)

/-- `SharedState.snapshot()`: a deep copy of the map.  In the pure embedding a
value is immutable, so the copy is the map itself; the aliasing-freedom the
copy buys in Python is automatic here. -/
def snapshot (data : StateMap) : StateMap := data

/-! ## VPR smoothing (`src/systems/vpr.py`) -/

/-- `TOP_K` in `vpr.py`. -/
def TOP_K : ℕ := 5

/-- `AVG_WINDOW` in `vpr.py`. -/
def AVG_WINDOW : ℕ := 3

/-- One per-frame top-K result: the list `frame_top` of
(region id, cosine confidence) pairs produced from one camera frame. -/
abbrev Frame := List (String × ℚ)

/-- `collections.deque(maxlen=m).append`: append on the right, dropping the
leftmost element once the deque is full. -/
def dequePush {α : Type} (maxlen : ℕ) (hist : List α) (x : α) : List α :=
  if hist.length < maxlen then hist ++ [x] else hist.tail ++ [x]

/-- All (region, confidence) pairs of the window, in the order the two nested
`for` loops of `VPRSystem.loop` visit them. -/
def windowPairs (hist : List Frame) : List (String × ℚ) := hist.flatten

/-- The keys of the `acc` defaultdict, in first-appearance order (Python dicts
iterate in insertion order). -/
def windowRegions (hist : List Frame) : List String :=
  (windowPairs hist).foldl
    (fun acc rc => if rc.1 ∈ acc then acc else acc ++ [rc.1]) []

/-- `acc[r]`: the confidences recorded for region `r` across the frames
currently in the window. -/
def regionConfs (hist : List Frame) (r : String) : List ℚ :=
  (windowPairs hist).filterMap (fun rc => if rc.1 = r then some rc.2 else none)

/-- `sum(v) / len(v)`. -/
def listMean (l : List ℚ) : ℚ := l.sum / l.length

/-- Insert into a list that is sorted by descending confidence, after every
element of greater or equal confidence (so the overall sort is stable, like
Python's `sorted(..., reverse=True)`). -/
def insertDesc (x : String × ℚ) : List (String × ℚ) → List (String × ℚ)
  | [] => [x]
  | y :: ys => if x.2 ≤ y.2 then y :: insertDesc x ys else x :: y :: ys

/-- `sorted(items, key=lambda x: x[1], reverse=True)`: stable descending sort
by confidence. -/
def sortDesc (l : List (String × ℚ)) : List (String × ℚ) :=
  l.foldl (fun acc x => insertDesc x acc) []

/-- The aggregation step of `VPRSystem.loop`: mean confidence per region over
the frames in the window, sorted descending, truncated to `TOP_K`. -/
def smoothed (hist : List Frame) : List (String × ℚ) :=
  (sortDesc ((windowRegions hist).map
    (fun r => (r, listMean (regionConfs hist r))))).take TOP_K

/-- The mutable recognition state of `VPRSystem`: the published estimate
`_top_k` and the sliding window `pred_hist`. -/
structure VPRState : Type where
  top_k : List (String × ℚ)
  pred_hist : List Frame
deriving DecidableEq, Repr

/-- State right after `__init__` / `init_hardware`: `_top_k = [("", 0.0)] * TOP_K`,
empty deque. -/
def vprInit : VPRState :=
  { top_k := List.replicate TOP_K ("", 0), pred_hist := [] }

/-- One iteration of `VPRSystem.loop` on a pending frame whose model/top-k
stage produced `frame_top = frame`: push into the window, re-aggregate,
publish. -/
def vprLoopStep (s : VPRState) (frame : Frame) : VPRState :=
  let hist := dequePush AVG_WINDOW s.pred_hist frame
  { top_k := smoothed hist, pred_hist := hist }

/-- `VPRSystem.clear()`: reset `_top_k` to `[("", 0.0)] * TOP_K` (and publish).
The deque `pred_hist` is not touched by the source. -/
def clear (s : VPRState) : VPRState :=
  { s with top_k := List.replicate TOP_K ("", 0) }

/-- `VPRSystem.get_top_regions()`: a copy of `_top_k`. -/
def get_top_regions (s : VPRState) : List (String × ℚ) := s.top_k

/-! ## Controller interlocks (`src/controller.py`) -/

/-- `self.stop_threshold = 0.75`. -/
def stopThreshold : ℚ := 3 / 4

/-- `self._drive_enable_threshold = 5`. -/
def driveEnableThreshold : ℕ := 5

/-- The counter update inside `Controller.drive_enabled`:
`counter + 1` when the sampled line reads enabled, `0` otherwise. -/
def driveEnabledStep (counter : ℕ) (val : Bool) : ℕ :=
  if val then counter + 1 else 0

/-- `Controller.drive_enabled()`: sample the line, update the counter, return
whether the updated counter exceeds the threshold, together with the updated
counter (the method mutates `self._drive_enable_counter`). -/
def drive_enabled (counter : ℕ) (val : Bool) : Bool × ℕ :=
  let c := driveEnabledStep counter val
  (decide (driveEnableThreshold < c), c)

/-- Counter value after folding a whole sample sequence from the initial 0. -/
def runCounter (samples : List Bool) : ℕ :=
  samples.foldl driveEnabledStep 0

/-- Length of the trailing run of `true` samples. -/
def trailingRun (samples : List Bool) : ℕ :=
  (samples.reverse.takeWhile id).length

/-- A command sent to the PWM controller during one actuator cycle. -/
inductive Cmd : Type where
  | hardBrake
  | setControls (throttle steer : ℚ)
deriving DecidableEq, Repr

/-- The brake guard of `_act_loop`:
`self.stop_region and any(r == self.stop_region and c > self.stop_threshold
for r, c in top_regions)` — note a `None` or empty stop region is falsy. -/
def stopCond (stopRegion : Option String) (topRegions : List (String × ℚ)) : Bool :=
  match stopRegion with
  | none => false
  | some sr => sr ≠ "" && topRegions.any (fun rc => rc.1 == sr && stopThreshold < rc.2)

/-- One iteration of `Controller._act_loop`.  `q` is the capacity-1 `act_q`
(`none` = empty).  Returns the command issued this cycle (`none` when the
blocking `get` timed out), the queue afterwards, and the drive-enable counter
afterwards. -/
def actLoopStep (stopRegion : Option String) (topRegions : List (String × ℚ))
    (q : Option (ℚ × ℚ)) (counter : ℕ) (driveVal : Bool) :
    Option Cmd × Option (ℚ × ℚ) × ℕ :=
  if stopCond stopRegion topRegions then
    (some .hardBrake, none, counter)
  else
    let c := driveEnabledStep counter driveVal
    if driveEnableThreshold < c then
      match q with
      | some a => (some (.setControls a.1 a.2), none, c)
      | none => (none, none, c)
    else
      (some (.setControls 0 0), q, c)

/-! ## Inference step (`src/systems/inference.py`) -/

/-- `max(-1, min(1, x))`. -/
def clamp (x : ℚ) : ℚ := max (-1) (min 1 x)

/-- The drain of `Inference.loop`: one `get_nowait`, then keep taking while
the queue is non-empty; the value kept is the last one in. -/
def drainToLast {α : Type} (x : α) : List α → α
  | [] => x
  | y :: ys => drainToLast y ys

/-- One iteration of `Inference.loop`.  `policy` abstracts the loaded network
(`self.model` plus `_obs_to_tensor`; `none` = model not loaded), `obsQ` the
observation queue front-first, `actQ` the capacity-1 action queue.  Returns
the queue states afterwards and the observation the policy ran on. -/
def inferenceStep {α : Type} (policy : Option (α → ℚ × ℚ)) (obsQ : List α)
    (actQ : Option (ℚ × ℚ)) : List α × Option (ℚ × ℚ) × Option α :=
  match obsQ with
  | [] => ([], actQ, none)
  | o :: rest =>
    let obs := drainToLast o rest
    match policy with
    | none => ([], actQ, none)
    | some f =>
      let a := f obs
      ([], some (clamp a.1, clamp a.2), some obs)

/-! ## Subsystem lifecycle (`src/systems/subsystem.py`) -/

/-- One publish event: the `status` value and the optional `error` message
passed to `self.publish`. -/
abbrev Ev := String × Option String

/-- The `while not self._stop_event.is_set()` loop of `Subsystem.run`.
`steps k` is the outcome of the `k`-th `self.loop()` call (`.error m` when it
raises an exception with message `m`); `stopAfter` is the number of loop
iterations that begin before the cooperative stop flag is observed.  Returns
the publish events of the loop (including the final `off`) and the number of
`loop()` calls actually made. -/
def runLoop (steps : ℕ → Except String Unit) : ℕ → ℕ → List Ev × ℕ
  | _, 0 => ([("off", none)], 0)
  | k, n + 1 =>
    match steps k with
    | .ok _ =>
      ((runLoop steps (k + 1) n).1, (runLoop steps (k + 1) n).2 + 1)
    | .error m => ([("error", some m), ("off", none)], 1)

/-- `Subsystem.run`: publish `initializing`, run `init_hardware` (outcome
`initRes`); on failure publish `error` and return, otherwise publish `ok` and
enter the loop.  Returns the full publish trace and the number of `loop()`
calls. -/
def runTrace (initRes : Except String Unit) (steps : ℕ → Except String Unit)
    (stopAfter : ℕ) : List Ev × ℕ :=
  match initRes with
  | .error m => ([("initializing", none), ("error", some m)], 0)
  | .ok _ =>
    (("initializing", none) :: ("ok", none) :: (runLoop steps 0 stopAfter).1,
     (runLoop steps 0 stopAfter).2)

/-! ## Navigator (`src/systems/navigator.py`)

The region graph and the `networkx` calls the planner makes on it are
abstracted into a structure: `adj` is `self._network.neighbors`, `angleTo`
is `_calculate_angle_to_neighbor` (an `atan2`-based bearing in degrees),
`sp` is `nx.shortest_path` (`none` models a raised `NetworkXNoPath`), and
`nodes` the node set used by the `in self._network` checks.  Facts the
planner relies on about `networkx` on the undirected unit-weight graph
(`sp a b` starts at `a`; reachability is closed under edges) appear as
hypotheses of the theorems. -/

structure Net : Type where
  nodes : List String
  adj : String → List String
  angleTo : String → String → ℚ
  sp : String → String → Option (List String)

/-- `_calculate_turn_angle(current_heading, target_heading)`:
`diff = abs(current - target); min(diff, 360 - diff)`. -/
def turnAngle (current target : ℚ) : ℚ :=
  min |current - target| (360 - |current - target|)

/-- `nx.shortest_path_length(source=a, target=b)` on the unit-weight graph:
the hop count of the shortest path, `none` when no path exists. -/
def splLen (net : Net) (a b : String) : Option ℕ :=
  (net.sp a b).map (fun p => p.length - 1)

/-- One comparison step of Python `min` under `key=lambda x: x[0]`: keep the
current best unless the new element's key is strictly smaller. -/
def pyMinStep (acc : Option (ℕ × String)) (x : ℕ × String) : Option (ℕ × String) :=
  match acc with
  | none => some x
  | some b => if x.1 < b.1 then some x else some b

/-- Python `min(l, key=lambda x: x[0])` on a non-empty list: the first
element with the smallest key (`none` on an empty list). -/
def pyMinBy (l : List (ℕ × String)) : Option (ℕ × String) :=
  l.foldl pyMinStep none

/-- The candidate list built by the `for neighbor in ...` loop of
`_plan_new_path`: neighbors whose required turn is not greater than 135°
and that have a path to the goal, each tagged with `1 + path_len`. -/
def candidates (net : Net) (goal current : String) (heading : ℚ) :
    List (ℕ × String) :=
  (net.adj current).filterMap (fun nb =>
    if 135 < turnAngle heading (net.angleTo current nb) then none
    else
      match splLen net nb goal with
      | some l => some (1 + l, nb)
      | none => none)

/-- `Navigator._plan_new_path(current, heading)`: returns the new
`self.current_path`; `.error` models an uncaught `NetworkXNoPath` escaping
from an `nx.shortest_path` call. -/
def planNewPath (net : Net) (goal current : String) (heading : ℚ) :
    Except String (List String) :=
  match pyMinBy (candidates net goal current heading) with
  | none => .ok []
  | some best =>
    match net.sp current goal with
    | none => .error "NetworkXNoPath"
    | some p =>
      if p.length < 2 ∨ p.get? 1 ≠ some best.2 then
        match net.sp best.2 goal with
        | none => .error "NetworkXNoPath"
        | some q => .ok (current :: q)
      else .ok p

/-- The mutable fields of `Navigator`: `goal_region` and `current_path`. -/
structure NavState : Type where
  goal : Option String
  path : List String
deriving DecidableEq, Repr

/-- The guidance dict returned by `Navigator.update`, with the keys that can
appear in each branch as optional fields. -/
structure Guidance : Type where
  status : String
  direction_vector : Option (ℚ × ℚ) := none
  message : Option String := none
  next_region : Option String := none
  full_path : Option (List String) := none
deriving DecidableEq, Repr

/-- `_convert_imu_to_world_yaw`: `(imu_yaw - 90 + 360) % 360`, with the
Python float modulo `x % 360 = x - 360 * floor(x / 360)`. -/
def qmod360 (x : ℚ) : ℚ := x - 360 * ⌊x / 360⌋

/-- `Navigator._convert_imu_to_world_yaw`. -/
def convertImuToWorldYaw (imuYaw : ℚ) : ℚ := qmod360 (imuYaw - 90 + 360)

/-- Python truthiness of `self.goal_region` (a `str | None`). -/
def goalTruthy : Option String → Bool
  | none => false
  | some g => g ≠ ""

/-- `Navigator.update(current_region, imu_heading_deg)`.  `dirVec` abstracts
`_get_direction_vector` (the `[sin, cos]` of the bearing).  Returns the
guidance dict and the navigator state after the call; `.error` models an
exception escaping `update`. -/
def update (net : Net) (dirVec : ℚ → ℚ × ℚ) (st : NavState) (current : String)
    (imuHeading : ℚ) : Except String (Guidance × NavState) :=
  if ¬ goalTruthy st.goal then
    .ok ({ status := "IDLE", message := some "Destination not set." }, st)
  else if current ∉ net.nodes then
    .ok ({ status := "ERROR",
           message := some ("Invalid current region " ++ current ++ ".") }, st)
  else if st.goal = some current then
    .ok ({ status := "GOAL_REACHED", direction_vector := some (0, 0) }, st)
  else
    let goal := st.goal.getD ""
    let wh := convertImuToWorldYaw imuHeading
    match
      (if st.path = [] ∨ current ∉ st.path then planNewPath net goal current wh
       else .ok st.path) with
    | .error e => .error e
    | .ok path1 =>
      if path1 = [] then
        .ok ({ status := "TURN_AROUND", direction_vector := some (0, 0) },
             { st with path := path1 })
      else
        match
          (if current ∈ path1 then path1.get? (path1.indexOf current + 1)
           else none) with
        | some nextRegion =>
          .ok ({ status := "NAVIGATING",
                 direction_vector := some (dirVec (net.angleTo current nextRegion)),
                 next_region := some nextRegion,
                 full_path := some path1 },
               { st with path := path1 })
        | none =>
          match planNewPath net goal current wh with
          | .error e => .error e
          | .ok path2 =>
            if path2 = [] then
              .ok ({ status := "TURN_AROUND", direction_vector := some (0, 0) },
                   { st with path := path2 })
            else
              match path2.get? 1 with
              | none => .error "IndexError"
              | some nextRegion =>
                .ok ({ status := "NAVIGATING",
                       direction_vector :=
                         some (dirVec (net.angleTo current nextRegion)),
                       next_region := some nextRegion,
                       full_path := some path2 },
                     { st with path := path2 })

/-! ## Helper lemmas -/

theorem runCounter_append (xs : List Bool) (b : Bool) :
    runCounter (xs ++ [b]) = driveEnabledStep (runCounter xs) b := by
  simp [runCounter, List.foldl_append]

theorem trailingRun_append (xs : List Bool) (b : Bool) :
    trailingRun (xs ++ [b]) = if b then trailingRun xs + 1 else 0 := by
  cases b <;> simp [trailingRun, List.reverse_append, List.takeWhile_cons]

theorem getLast?_drainToLast {α : Type} (x : α) (l : List α) :
    (x :: l).getLast? = some (drainToLast x l) := by
  induction l generalizing x with
  | nil => rfl
  | cons y ys ih => rw [List.getLast?_cons_cons, ih]; rfl

/-- Claim C3: the drive-enable counter is the run length of consecutive
enabled samples — a sampled disable resets it to 0 that very cycle, a sampled
enable increments it by 1, `drive_enabled()` returns true iff the (updated)
counter strictly exceeds the debounce threshold 5, and folding any sample
sequence from 0 yields exactly the length of the trailing run of enabled
samples. -/
theorem drive_enable_debounce :
    (∀ c : ℕ, driveEnabledStep c false = 0) ∧
    (∀ c : ℕ, driveEnabledStep c true = c + 1) ∧
    (∀ (c : ℕ) (v : Bool),
      ((drive_enabled c v).1 = true ↔ driveEnableThreshold < (drive_enabled c v).2)) ∧
    (∀ samples : List Bool, runCounter samples = trailingRun samples) := by
  refine ⟨fun c => rfl, fun c => rfl, fun c v => by simp [drive_enabled], ?_⟩
  intro samples
  induction samples using List.reverseRecOn with
  | nil => rfl
  | append_singleton xs b ih =>
    rw [runCounter_append, trailingRun_append, ih]
    cases b <;> simp [driveEnabledStep]

/-- Claim C1: in an actuation cycle where a stop region is configured (a
non-empty string) and the VPR top-regions list holds an entry for it with
confidence strictly above the 0.75 threshold, `_act_loop` issues a hard brake
(never a `set_controls` command) and empties the capacity-1 action queue; the
drive-enable counter is not even sampled that cycle. -/
theorem act_loop_stop_brakes (sr : String) (topRegions : List (String × ℚ))
    (q : Option (ℚ × ℚ)) (counter : ℕ) (driveVal : Bool) (c : ℚ)
    (hsr : sr ≠ "") (hmem : (sr, c) ∈ topRegions) (hc : stopThreshold < c) :
    actLoopStep (some sr) topRegions q counter driveVal
      = (some Cmd.hardBrake, none, counter) ∧
    ∀ t s : ℚ,
      (actLoopStep (some sr) topRegions q counter driveVal).1
        ≠ some (Cmd.setControls t s) := by
  have hcond : stopCond (some sr) topRegions = true := by
    simp only [stopCond, List.any_eq_true, Bool.and_eq_true, decide_eq_true_eq,
      ne_eq, beq_iff_eq]
    exact ⟨by simpa using hsr, (sr, c), hmem, rfl, hc⟩
  refine ⟨by simp [actLoopStep, hcond], fun t s => by simp [actLoopStep, hcond]⟩

/-- Concrete instance of `act_loop_stop_brakes`. -/
theorem act_loop_stop_brakes_witness :
    actLoopStep (some "r_01") [("r_07", 1/5), ("r_01", 9/10)] (some (1/2, 0)) 7 true
      = (some Cmd.hardBrake, none, 7) :=
  (act_loop_stop_brakes "r_01" [("r_07", 1/5), ("r_01", 9/10)] (some (1/2, 0)) 7
    true (9/10) (by decide) (by simp) (by norm_num [stopThreshold])).1

/-- Claim C4: an inference step on a non-empty observation queue consumes
exactly the most recently produced observation (the last one in), leaves the
observation queue empty, clamps both policy outputs to [-1,1], and replaces
whatever action was queued with the fresh clamped action. -/
theorem inference_freshest (α : Type) (f : α → ℚ × ℚ) (o : α) (rest : List α)
    (actQ : Option (ℚ × ℚ)) :
    (∃ newest, (o :: rest).getLast? = some newest ∧
      inferenceStep (some f) (o :: rest) actQ
        = ([], some (clamp (f newest).1, clamp (f newest).2), some newest)) ∧
    (∀ x : ℚ, -1 ≤ clamp x ∧ clamp x ≤ 1) := by
  refine ⟨⟨drainToLast o rest, getLast?_drainToLast o rest, rfl⟩, fun x => ?_⟩
  constructor
  · exact le_max_left _ _
  · simp only [clamp, max_le_iff, min_le_iff]
    exact ⟨by norm_num, Or.inl le_rfl⟩

theorem mem_insertDesc (x y : String × ℚ) (l : List (String × ℚ)) :
    y ∈ insertDesc x l ↔ y = x ∨ y ∈ l := by
  induction l with
  | nil => simp [insertDesc]
  | cons z zs ih =>
    simp only [insertDesc]
    split_ifs
    · rw [List.mem_cons, ih, List.mem_cons]
      tauto
    · rw [List.mem_cons]

theorem mem_sortDesc_aux (l acc : List (String × ℚ)) (y : String × ℚ) :
    y ∈ l.foldl (fun acc x => insertDesc x acc) acc ↔ y ∈ acc ∨ y ∈ l := by
  induction l generalizing acc with
  | nil => simp
  | cons z zs ih =>
    simp only [List.foldl_cons, ih, mem_insertDesc, List.mem_cons]
    tauto

theorem mem_sortDesc (y : String × ℚ) (l : List (String × ℚ)) :
    y ∈ sortDesc l ↔ y ∈ l := by
  simp [sortDesc, mem_sortDesc_aux]

theorem length_insertDesc (x : String × ℚ) (l : List (String × ℚ)) :
    (insertDesc x l).length = l.length + 1 := by
  induction l with
  | nil => rfl
  | cons z zs ih => simp only [insertDesc]; split_ifs <;> simp [ih]

theorem length_sortDesc_aux (l acc : List (String × ℚ)) :
    (l.foldl (fun acc x => insertDesc x acc) acc).length = acc.length + l.length := by
  induction l generalizing acc with
  | nil => rfl
  | cons z zs ih =>
    simp only [List.foldl_cons, ih, length_insertDesc, List.length_cons]
    omega

theorem length_sortDesc (l : List (String × ℚ)) :
    (sortDesc l).length = l.length := by
  simp [sortDesc, length_sortDesc_aux]

theorem pairwise_insertDesc (x : String × ℚ) (l : List (String × ℚ))
    (h : l.Pairwise (fun a b => b.2 ≤ a.2)) :
    (insertDesc x l).Pairwise (fun a b => b.2 ≤ a.2) := by
  induction l with
  | nil => simp [insertDesc]
  | cons z zs ih =>
    rw [List.pairwise_cons] at h
    obtain ⟨hz, hzs⟩ := h
    simp only [insertDesc]
    split_ifs with hle
    · rw [List.pairwise_cons]
      refine ⟨fun b hb => ?_, ih hzs⟩
      rcases (mem_insertDesc x b zs).mp hb with rfl | hb
      · exact hle
      · exact hz b hb
    · push_neg at hle
      rw [List.pairwise_cons]
      refine ⟨fun b hb => ?_, List.pairwise_cons.mpr ⟨hz, hzs⟩⟩
      rcases List.mem_cons.mp hb with rfl | hb
      · exact le_of_lt hle
      · exact le_trans (hz b hb) (le_of_lt hle)

theorem pairwise_sortDesc_aux (l acc : List (String × ℚ))
    (h : acc.Pairwise (fun a b => b.2 ≤ a.2)) :
    (l.foldl (fun acc x => insertDesc x acc) acc).Pairwise (fun a b => b.2 ≤ a.2) := by
  induction l generalizing acc with
  | nil => exact h
  | cons z zs ih => exact ih _ (pairwise_insertDesc z acc h)

theorem pairwise_sortDesc (l : List (String × ℚ)) :
    (sortDesc l).Pairwise (fun a b => b.2 ≤ a.2) :=
  pairwise_sortDesc_aux l [] List.Pairwise.nil

theorem mem_dedupFold_aux (l : List (String × ℚ)) (acc : List String) (x : String) :
    x ∈ l.foldl (fun acc rc => if rc.1 ∈ acc then acc else acc ++ [rc.1]) acc ↔
      x ∈ acc ∨ x ∈ l.map Prod.fst := by
  induction l generalizing acc with
  | nil => simp
  | cons z zs ih =>
    simp only [List.foldl_cons]
    split_ifs with hz
    · rw [ih]
      simp only [List.map_cons, List.mem_cons]
      constructor
      · rintro (h | h)
        exacts [Or.inl h, Or.inr (Or.inr h)]
      · rintro (h | rfl | h)
        exacts [Or.inl h, Or.inl hz, Or.inr h]
    · rw [ih]
      simp only [List.mem_append, List.mem_singleton, List.map_cons, List.mem_cons]
      tauto

theorem mem_windowRegions (hist : List Frame) (r : String) :
    r ∈ windowRegions hist ↔ r ∈ (windowPairs hist).map Prod.fst := by
  simp [windowRegions, mem_dedupFold_aux]

theorem mem_regionConfs {hist : List Frame} {r : String} {c : ℚ}
    (h : c ∈ regionConfs hist r) : (r, c) ∈ windowPairs hist := by
  simp only [regionConfs, List.mem_filterMap] at h
  obtain ⟨rc, hrc, hc⟩ := h
  by_cases h1 : rc.1 = r
  · rw [if_pos h1] at hc
    obtain rfl := Option.some.inj hc
    rwa [← h1, Prod.mk.eta]
  · rw [if_neg h1] at hc
    exact absurd hc (by simp)

theorem regionConfs_ne_nil {hist : List Frame} {r : String}
    (h : r ∈ windowRegions hist) : regionConfs hist r ≠ [] := by
  rw [mem_windowRegions, List.mem_map] at h
  obtain ⟨rc, hrc, rfl⟩ := h
  intro hnil
  have hmem : rc.2 ∈ regionConfs hist rc.1 :=
    List.mem_filterMap.mpr ⟨rc, hrc, by simp⟩
  rw [hnil] at hmem
  exact absurd hmem (List.not_mem_nil _)

theorem listMean_bounds {l : List ℚ} (hne : l ≠ [])
    (h : ∀ x ∈ l, 0 ≤ x ∧ x ≤ 1) : 0 ≤ listMean l ∧ listMean l ≤ 1 := by
  have hlen : 0 < (l.length : ℚ) := by
    exact_mod_cast List.length_pos.mpr hne
  have hsum0 : 0 ≤ l.sum := List.sum_nonneg (fun x hx => (h x hx).1)
  have hsum1 : l.sum ≤ (l.length : ℚ) := by
    calc l.sum ≤ l.length • (1 : ℚ) :=
          List.sum_le_card_nsmul l 1 (fun x hx => (h x hx).2)
    _ = l.length := by simp
  exact ⟨div_nonneg hsum0 (le_of_lt hlen),
    (div_le_one hlen).mpr hsum1⟩

theorem mem_smoothed_eq_mean {hist : List Frame} {r : String} {c : ℚ}
    (h : (r, c) ∈ smoothed hist) :
    r ∈ windowRegions hist ∧ c = listMean (regionConfs hist r) := by
  have h1 := (List.take_sublist _ _).subset h
  rw [mem_sortDesc, List.mem_map] at h1
  obtain ⟨r', hr', heq⟩ := h1
  obtain ⟨rfl, rfl⟩ := Prod.mk.injEq .. ▸ Prod.ext_iff.mp heq
  exact ⟨hr', rfl⟩

/-- Claim C2 counterexample: `clear()` does not reset the sliding window.
Push one frame, clear, push a second frame: the published estimate still
averages in the pre-clear frame, so it differs from the estimate the second
frame alone would give. -/
theorem clear_keeps_window_cex :
    (vprLoopStep (clear (vprLoopStep vprInit
        [("a", 1), ("b", 1), ("c", 1), ("d", 1), ("e", 1)]))
        [("v", 1/2), ("w", 1/2), ("x", 1/2), ("y", 1/2), ("z", 1/2)]).top_k
      ≠ (vprLoopStep vprInit
        [("v", 1/2), ("w", 1/2), ("x", 1/2), ("y", 1/2), ("z", 1/2)]).top_k := by
  simp [vprLoopStep, clear, vprInit, dequePush, smoothed, windowRegions, windowPairs,
    regionConfs, listMean, sortDesc, insertDesc, TOP_K, AVG_WINDOW]
  norm_num [insertDesc]

/-- Claim C2 amended: `clear()` resets the smoothed estimate
(`get_top_regions` returns `TOP_K` pairs `("", 0.0)`) but leaves the sliding
window of per-frame results untouched, so processing the next frame behaves
exactly as if `clear()` had never been called — pre-clear frames still
contribute to its smoothed estimate. -/
theorem clear_resets_estimate_only (s : VPRState) (f : Frame) :
    get_top_regions (clear s) = List.replicate TOP_K ("", 0) ∧
    (clear s).pred_hist = s.pred_hist ∧
    vprLoopStep (clear s) f = vprLoopStep s f :=
  ⟨rfl, rfl, rfl⟩

/-- Claim C5: every confidence reported by the smoothing step is the
arithmetic mean of that region's per-frame confidences over exactly the
frames in the window; frames not containing the region contribute nothing;
and once the window holds `AVG_WINDOW` frames, the next push evicts the
oldest frame. -/
theorem vpr_mean_window (hist : List Frame) (r : String) (c : ℚ) (f : Frame)
    (s : VPRState) :
    ((r, c) ∈ smoothed hist → c = listMean (regionConfs hist r)) ∧
    ((∀ rc ∈ f, rc.1 ≠ r) → regionConfs (f :: hist) r = regionConfs hist r) ∧
    (s.pred_hist.length = AVG_WINDOW →
      (vprLoopStep s f).pred_hist = s.pred_hist.tail ++ [f]) := by
  refine ⟨fun h => (mem_smoothed_eq_mean h).2, fun h => ?_, fun h => ?_⟩
  · have hf : f.filterMap (fun rc => if rc.1 = r then some rc.2 else none) = [] :=
      List.filterMap_eq_nil_iff.mpr (fun rc hrc => if_neg (h rc hrc))
    simp [regionConfs, windowPairs, List.filterMap_append, hf]
  · simp [vprLoopStep, dequePush, h]

/-- Concrete instance of `vpr_mean_window`. -/
theorem vpr_mean_window_witness :
    ((1 : ℚ) = listMean (regionConfs [[("a", 1)]] "a")) ∧
    regionConfs [[("b", 2)], [("a", 1)]] "a" = regionConfs [[("a", 1)]] "a" ∧
    (vprLoopStep ⟨[], [[("p", 1)], [("q", 1)], [("u", 1)]]⟩ [("b", 2)]).pred_hist
      = [[("q", 1)], [("u", 1)], [("b", 2)]] := by
  obtain ⟨h1, h2, h3⟩ := vpr_mean_window [[("a", 1)]] "a" 1 [("b", 2)]
    ⟨[], [[("p", 1)], [("q", 1)], [("u", 1)]]⟩
  refine ⟨h1 ?_, h2 (by decide), (h3 (by decide)).trans rfl⟩
  simp [smoothed, windowRegions, windowPairs, regionConfs, listMean, sortDesc,
    insertDesc, TOP_K]

/-- Claim C6 counterexample: with window size 3 and frame top-1 results
(r1, 0.9), (r1, 0.6), (r2, 0.8), the smoothed top-1 is not r1: r2's mean 0.8
exceeds r1's mean 0.75 and the estimate is sorted descending. -/
theorem vpr_scenario_cex :
    ¬ ((vprLoopStep (vprLoopStep (vprLoopStep vprInit [("r1", 9/10)])
        [("r1", 3/5)]) [("r2", 4/5)]).top_k.head?.map Prod.fst = some "r1") := by
  have h : (vprLoopStep (vprLoopStep (vprLoopStep vprInit [("r1", 9/10)])
      [("r1", 3/5)]) [("r2", 4/5)]).top_k = [("r2", 4/5), ("r1", 3/4)] := by
    simp [vprLoopStep, clear, vprInit, dequePush, smoothed, windowRegions, windowPairs,
    regionConfs, listMean, sortDesc, insertDesc, TOP_K, AVG_WINDOW]
    norm_num
  rw [h]
  decide

/-- Claim C6 amended: after the three pushes the smoothed estimate reports
r1 at 0.75 (the mean of its two observed samples, not a zero-filled 0.5) and
r2 at 0.8; the descending sort ranks r2 above r1, so the smoothed top-1 is
r2. -/
theorem vpr_scenario_amended :
    (vprLoopStep (vprLoopStep (vprLoopStep vprInit [("r1", 9/10)])
        [("r1", 3/5)]) [("r2", 4/5)]).top_k
      = [("r2", 4/5), ("r1", 3/4)] := by
  simp [vprLoopStep, clear, vprInit, dequePush, smoothed, windowRegions, windowPairs,
    regionConfs, listMean, sortDesc, insertDesc, TOP_K, AVG_WINDOW]
  norm_num

/-- Claim C7 counterexample: a VPR cycle whose frame names fewer than
`TOP_K` distinct regions (here five entries all for region "a") publishes an
estimate of length 1, not length `TOP_K`. -/
theorem vpr_topk_length_cex :
    (vprLoopStep vprInit
        [("a", 9/10), ("a", 4/5), ("a", 7/10), ("a", 3/5), ("a", 1/2)]).top_k.length
      ≠ TOP_K := by
  simp [vprLoopStep, clear, vprInit, dequePush, smoothed, windowRegions, windowPairs,
    regionConfs, listMean, sortDesc, insertDesc, TOP_K, AVG_WINDOW]

/-- Claim C7 amended: every estimate produced by a VPR cycle has length
`min TOP_K (number of distinct regions in the window)` — hence at most
`TOP_K`, and exactly `TOP_K` only when the window names at least `TOP_K`
distinct regions — is sorted by descending confidence, and every reported
confidence lies in [0,1] whenever all per-frame confidences in the window
do. -/
theorem vpr_topk_shape (s : VPRState) (f : Frame) :
    (vprLoopStep s f).top_k = smoothed (dequePush AVG_WINDOW s.pred_hist f) ∧
    ∀ hist : List Frame,
      (smoothed hist).length = min TOP_K (windowRegions hist).length ∧
      (smoothed hist).Pairwise (fun a b => b.2 ≤ a.2) ∧
      ((∀ rc ∈ windowPairs hist, 0 ≤ rc.2 ∧ rc.2 ≤ 1) →
        ∀ rc ∈ smoothed hist, 0 ≤ rc.2 ∧ rc.2 ≤ 1) := by
  refine ⟨rfl, fun hist => ⟨?_, ?_, fun hin rc hrc => ?_⟩⟩
  · simp [smoothed, List.length_take, length_sortDesc]
  · exact (pairwise_sortDesc _).sublist (List.take_sublist _ _)
  · obtain ⟨r, c⟩ := rc
    obtain ⟨hr, rfl⟩ := mem_smoothed_eq_mean hrc
    exact listMean_bounds (regionConfs_ne_nil hr)
      (fun x hx => hin (r, x) (mem_regionConfs hx))

/-- Concrete instance of `vpr_topk_shape`. -/
theorem vpr_topk_shape_witness :
    (smoothed [[("a", 1/2), ("b", 1/4)]]).length = min TOP_K 2 ∧
    (0 ≤ (("a", (1 : ℚ)/2)).2 ∧ (("a", (1 : ℚ)/2)).2 ≤ 1) := by
  obtain ⟨-, hall⟩ := vpr_topk_shape vprInit [[("a", 1/2), ("b", 1/4)]].head!
  obtain ⟨hlen, -, hbnd⟩ := hall [[("a", 1/2), ("b", 1/4)]]
  refine ⟨by simpa using hlen, hbnd ?_ ("a", 1/2) ?_⟩
  · norm_num [windowPairs]
  · simp [smoothed, windowRegions, windowPairs, regionConfs, listMean, sortDesc,
      insertDesc, TOP_K]
    norm_num

theorem runLoop_ok (steps : ℕ → Except String Unit) (k n : ℕ)
    (h : ∀ i, k ≤ i → i < k + n → steps i = .ok ()) :
    runLoop steps k n = ([("off", none)], n) := by
  induction n generalizing k with
  | zero => rfl
  | succ m ih =>
    have hk : steps k = .ok () := h k le_rfl (by omega)
    simp only [runLoop, hk]
    rw [ih (k + 1) (fun i h1 h2 => h i (by omega) (by omega))]

theorem runLoop_err (steps : ℕ → Except String Unit) (m : String) (k n j : ℕ)
    (hk : k ≤ j) (hj : j < k + n) (herr : steps j = .error m)
    (hok : ∀ i, k ≤ i → i < j → steps i = .ok ()) :
    runLoop steps k n = ([("error", some m), ("off", none)], j - k + 1) := by
  induction n generalizing k with
  | zero => omega
  | succ p ih =>
    by_cases hkj : k = j
    · subst hkj
      simp [runLoop, herr]
    · have hks : steps k = .ok () := hok k le_rfl (by omega)
      simp only [runLoop, hks]
      rw [ih (k + 1) (by omega) (by omega) (fun i h1 h2 => hok i (by omega) h2)]
      simp only [Prod.mk.injEq]
      exact ⟨trivial, by omega⟩

/-- Claim C9: a failing `init_hardware` publishes `error` with the message
and the unit exits with zero `loop()` calls; the first failing `loop()` call
publishes `error` with the message and no further `loop()` call is made; a
cooperative stop lets every begun `loop()` finish, publishes `off`, and
exits.  `runTrace` is a total function into publish traces, so in the
embedding no failure ever leaves the subsystem as an exception — it is
visible only as published status facts. -/
theorem subsystem_lifecycle (m : String) (steps : ℕ → Except String Unit)
    (stopAfter j : ℕ) :
    (runTrace (.error m) steps stopAfter
       = ([("initializing", none), ("error", some m)], 0)) ∧
    (steps j = .error m → (∀ i, i < j → steps i = .ok ()) → j < stopAfter →
       runTrace (.ok ()) steps stopAfter
         = ([("initializing", none), ("ok", none), ("error", some m),
             ("off", none)], j + 1)) ∧
    ((∀ i, i < stopAfter → steps i = .ok ()) →
       runTrace (.ok ()) steps stopAfter
         = ([("initializing", none), ("ok", none), ("off", none)], stopAfter)) := by
  refine ⟨rfl, fun herr hok hlt => ?_, fun hok => ?_⟩
  · simp only [runTrace]
    rw [runLoop_err steps m 0 stopAfter j (by omega) (by omega) herr
      (fun i h1 h2 => hok i h2)]
    simp
  · simp only [runTrace]
    rw [runLoop_ok steps 0 stopAfter (fun i h1 h2 => hok i (by omega))]

/-- Concrete instance of `subsystem_lifecycle`. -/
theorem subsystem_lifecycle_witness :
    runTrace (.ok ()) (fun i => if i = 2 then .error "boom" else .ok ()) 9
      = ([("initializing", none), ("ok", none), ("error", some "boom"),
          ("off", none)], 3) :=
  (subsystem_lifecycle "boom" (fun i => if i = 2 then .error "boom" else .ok ())
      9 2).2.1 rfl
    (by intro i hi; interval_cases i <;> rfl) (by omega)

theorem lookupKey_setKey_self {β : Type} (d : List (String × β)) (k : String)
    (v : β) : lookupKey (setKey d k v) k = some v := by
  induction d with
  | nil => simp [setKey, lookupKey]
  | cons p rest ih =>
    obtain ⟨k', v'⟩ := p
    simp only [setKey]
    split_ifs with h
    · simp [lookupKey]
    · simp only [lookupKey] at ih ⊢
      rw [List.find?_cons_of_neg _ (by simpa using h)]
      exact ih

theorem lookupKey_setKey_other {β : Type} (d : List (String × β))
    (k k' : String) (v : β) (h : k' ≠ k) :
    lookupKey (setKey d k v) k' = lookupKey d k' := by
  induction d with
  | nil =>
    simp only [setKey, lookupKey]
    rw [List.find?_cons_of_neg _ (by simp [Ne.symm h])]
  | cons p rest ih =>
    obtain ⟨k0, v0⟩ := p
    simp only [setKey]
    split_ifs with hk
    · subst hk
      simp only [lookupKey]
      rw [List.find?_cons_of_neg _ (by simp [Ne.symm h]),
        List.find?_cons_of_neg _ (by simp [Ne.symm h])]
    · by_cases hk0 : k0 = k'
      · subst hk0
        simp only [lookupKey]
        rw [List.find?_cons_of_pos _ (by simp), List.find?_cons_of_pos _ (by simp)]
      · rw [lookupKey, lookupKey] at ih ⊢
        rw [List.find?_cons_of_neg _ (by simpa using hk0),
          List.find?_cons_of_neg _ (by simpa using hk0)]
        exact ih

theorem lookupKey_map_coerce (kv : Entry) (k : String) :
    lookupKey (kv.map (fun p => (p.1, coerce p.2))) k
      = (lookupKey kv k).map coerce := by
  induction kv with
  | nil => rfl
  | cons p rest ih =>
    simp only [List.map_cons, lookupKey] at ih ⊢
    by_cases h : p.1 = k
    · rw [List.find?_cons_of_pos _ (by simpa using h),
        List.find?_cons_of_pos _ (by simpa using h)]
      rfl
    · rw [List.find?_cons_of_neg _ (by simpa using h),
        List.find?_cons_of_neg _ (by simpa using h)]
      exact ih

/-- Claim C10: `put` stores under `who` the coerced entry whose `"ts"` key is
always the write time (overwriting any caller-supplied `ts`); every other key
holds the coercion of the caller's value — ints, floats and bools become
floats, lists and dicts pass through unchanged, anything else becomes its
string form; `snapshot` returns the (deep-copied) map itself, and in this
pure embedding a snapshot can never be affected by a later `put`, nor the
store by mutating a snapshot. -/
theorem shared_state_put (data : StateMap) (who : String) (kv : Entry) (now : ℚ) :
    lookupKey (put data who kv now) who = some (putEntry kv now) ∧
    lookupKey (putEntry kv now) "ts" = some (.pyFloat now) ∧
    (∀ k v, k ≠ "ts" → lookupKey kv k = some v →
       lookupKey (putEntry kv now) k = some (coerce v)) ∧
    ((∀ n : ℤ, coerce (.pyInt n) = .pyFloat n) ∧
     (∀ q : ℚ, coerce (.pyFloat q) = .pyFloat q) ∧
     coerce (.pyBool true) = .pyFloat 1 ∧
     coerce (.pyBool false) = .pyFloat 0 ∧
     (∀ l, coerce (.pyList l) = .pyList l) ∧
     (∀ d, coerce (.pyDict d) = .pyDict d) ∧
     (∀ s, coerce (.pyStr s) = .pyStr s) ∧
     (∀ s, coerce (.pyOther s) = .pyStr s)) ∧
    snapshot (put data who kv now) = put (snapshot data) who kv now ∧
    snapshot data = data := by
  refine ⟨lookupKey_setKey_self data who _, lookupKey_setKey_self _ "ts" _,
    fun k v hk hv => ?_,
    ⟨fun n => rfl, fun q => rfl, rfl, rfl, fun l => rfl, fun d => rfl,
      fun s => rfl, fun s => rfl⟩, rfl, rfl⟩
  rw [putEntry, lookupKey_setKey_other _ _ _ _ hk, lookupKey_map_coerce, hv]
  rfl

/-- Concrete instance of `shared_state_put`. -/
theorem shared_state_put_witness :
    lookupKey (putEntry
        [("status", PyVal.pyStr "ok"), ("ts", PyVal.pyBool true),
         ("n", PyVal.pyInt 3)] 42) "n"
      = some (PyVal.pyFloat 3) := by
  have h := (shared_state_put [] "vpr"
      [("status", PyVal.pyStr "ok"), ("ts", PyVal.pyBool true),
       ("n", PyVal.pyInt 3)] 42).2.2.1 "n" (.pyInt 3) (by decide) rfl
  rw [h]
  norm_num [coerce]

theorem pyMinBy_go (l : List (ℕ × String)) (b : ℕ × String) :
    ∃ m, l.foldl pyMinStep (some b) = some m ∧ (m = b ∨ m ∈ l) ∧
      m.1 ≤ b.1 ∧ ∀ x ∈ l, m.1 ≤ x.1 := by
  induction l generalizing b with
  | nil => exact ⟨b, rfl, Or.inl rfl, le_rfl, by simp⟩
  | cons y ys ih =>
    rw [List.foldl_cons]
    have hstep : pyMinStep (some b) y = if y.1 < b.1 then some y else some b := rfl
    rw [hstep]
    by_cases hy : y.1 < b.1
    · rw [if_pos hy]
      obtain ⟨m, hm, hmem, hle, hall⟩ := ih y
      refine ⟨m, hm, ?_, le_trans hle (le_of_lt hy), fun x hx => ?_⟩
      · rcases hmem with rfl | hmem
        · exact Or.inr (List.mem_cons_self _ _)
        · exact Or.inr (List.mem_cons_of_mem _ hmem)
      · rcases List.mem_cons.mp hx with rfl | hx
        · exact hle
        · exact hall x hx
    · rw [if_neg hy]
      push_neg at hy
      obtain ⟨m, hm, hmem, hle, hall⟩ := ih b
      refine ⟨m, hm, ?_, hle, fun x hx => ?_⟩
      · rcases hmem with rfl | hmem
        · exact Or.inl rfl
        · exact Or.inr (List.mem_cons_of_mem _ hmem)
      · rcases List.mem_cons.mp hx with rfl | hx
        · exact le_trans hle hy
        · exact hall x hx

theorem pyMinBy_spec {l : List (ℕ × String)} {m : ℕ × String}
    (h : pyMinBy l = some m) : m ∈ l ∧ ∀ x ∈ l, m.1 ≤ x.1 := by
  cases l with
  | nil => exact absurd h (by simp [pyMinBy])
  | cons y ys =>
    rw [pyMinBy, List.foldl_cons] at h
    have hstep : pyMinStep none y = some y := rfl
    rw [hstep] at h
    obtain ⟨m', hm', hmem, hle, hall⟩ := pyMinBy_go ys y
    rw [hm'] at h
    obtain rfl := Option.some.inj h
    refine ⟨?_, fun x hx => ?_⟩
    · rcases hmem with rfl | hmem
      · exact List.mem_cons_self _ _
      · exact List.mem_cons_of_mem _ hmem
    · rcases List.mem_cons.mp hx with rfl | hx
      · exact hle
      · exact hall x hx

theorem pyMinBy_isSome {l : List (ℕ × String)} (hne : l ≠ []) :
    ∃ m, pyMinBy l = some m := by
  cases l with
  | nil => exact absurd rfl hne
  | cons y ys =>
    rw [pyMinBy, List.foldl_cons]
    have hstep : pyMinStep none y = some y := rfl
    rw [hstep]
    obtain ⟨m, hm, -⟩ := pyMinBy_go ys y
    exact ⟨m, hm⟩

theorem mem_candidates (net : Net) (goal0 current : String) (heading : ℚ)
    (k : ℕ) (nb : String) :
    (k, nb) ∈ candidates net goal0 current heading ↔
      nb ∈ net.adj current ∧
      turnAngle heading (net.angleTo current nb) ≤ 135 ∧
      ∃ l, splLen net nb goal0 = some l ∧ k = 1 + l := by
  simp only [candidates, List.mem_filterMap]
  constructor
  · rintro ⟨a, ha, hf⟩
    by_cases hturn : 135 < turnAngle heading (net.angleTo current a)
    · rw [if_pos hturn] at hf
      exact absurd hf (by simp)
    · rw [if_neg hturn] at hf
      push_neg at hturn
      cases hsl : splLen net a goal0 with
      | none =>
        rw [hsl] at hf
        exact absurd hf (by simp)
      | some l =>
        rw [hsl] at hf
        have heq := Option.some.inj hf
        obtain rfl : a = nb := congrArg Prod.snd heq
        exact ⟨ha, hturn, l, hsl, (congrArg Prod.fst heq).symm⟩
  · rintro ⟨hadj, hturn, l, hsl, rfl⟩
    refine ⟨nb, hadj, ?_⟩
    rw [if_neg (not_lt.mpr hturn), hsl]

theorem splLen_isSome {net : Net} {a b : String} {l : ℕ}
    (h : splLen net a b = some l) : ∃ p, net.sp a b = some p := by
  cases hp : net.sp a b with
  | none => rw [splLen, hp] at h; exact absurd h (by simp)
  | some p => exact ⟨p, rfl⟩

/-- Core behaviour of `_plan_new_path` when the candidate list is non-empty:
the committed path starts at the current region and its second node is the
selected best candidate. -/
theorem planNewPath_some (net : Net) (goal0 current : String) (heading : ℚ)
    (k : ℕ) (best : String)
    (hsp : ∀ a b p, net.sp a b = some p → p.head? = some a)
    (hconn : ∀ a b t, b ∈ net.adj a → (net.sp b t).isSome → (net.sp a t).isSome)
    (hmin : pyMinBy (candidates net goal0 current heading) = some (k, best)) :
    ∃ p, planNewPath net goal0 current heading = .ok p ∧
      p.head? = some current ∧ p.get? 1 = some best := by
  obtain ⟨hmem, -⟩ := pyMinBy_spec hmin
  obtain ⟨hadj, -, l, hsl, -⟩ := (mem_candidates net goal0 current heading k best).mp hmem
  obtain ⟨q0, hq0⟩ := splLen_isSome hsl
  have hcur : (net.sp current goal0).isSome :=
    hconn current best goal0 hadj (by rw [hq0]; rfl)
  obtain ⟨p0, hp0⟩ := Option.isSome_iff_exists.mp hcur
  by_cases hif : p0.length < 2 ∨ p0.get? 1 ≠ some best
  · refine ⟨current :: q0, ?_, rfl, ?_⟩
    · simp only [planNewPath, hmin, hp0, hq0, if_pos hif]
    · rw [List.get?_cons_succ, List.get?_zero]
      exact hsp best goal0 q0 hq0
  · refine ⟨p0, ?_, hsp current goal0 p0 hp0, ?_⟩
    · simp only [planNewPath, hmin, hp0, if_neg hif]
    · push_neg at hif
      exact hif.2

theorem planNewPath_empty (net : Net) (goal0 current : String) (heading : ℚ)
    (hc : candidates net goal0 current heading = []) :
    planNewPath net goal0 current heading = .ok [] := by
  simp only [planNewPath, hc, pyMinBy, List.foldl_nil]

/-- Claim C8: whenever `_plan_new_path` runs (given the `networkx` facts that
a shortest path starts at its source and that reachability is closed under
graph edges): (a) no neighbor requiring a turn of more than 135° from the
current world-frame heading is ever the committed path's second node; (b) if
some neighbor passes the turn filter and has a path to the goal, a path is
committed that starts at the current region and whose second element is a
passing neighbor minimizing `1 + shortest-path length to the goal`; (c) if no
candidate survives, the committed path is empty; (d) the raw shortest path is
kept exactly when its second node is the selected candidate, and otherwise
the candidate is spliced in front of the candidate's own shortest path;
(e) `update`, when it re-plans and no neighbor passes the turn filter
(measured at the IMU heading converted to world frame), returns status
`TURN_AROUND` with a zero direction vector and an empty committed path. -/
theorem planner_forward_constraint (net : Net) (goal0 current : String)
    (heading : ℚ)
    (hsp : ∀ a b p, net.sp a b = some p → p.head? = some a)
    (hconn : ∀ a b t, b ∈ net.adj a → (net.sp b t).isSome → (net.sp a t).isSome) :
    (∀ p, planNewPath net goal0 current heading = .ok p →
       ∀ nb, nb ∈ net.adj current →
         135 < turnAngle heading (net.angleTo current nb) →
         p.get? 1 ≠ some nb) ∧
    (candidates net goal0 current heading ≠ [] →
       ∃ k best p,
         pyMinBy (candidates net goal0 current heading) = some (k, best) ∧
         planNewPath net goal0 current heading = .ok p ∧
         p.head? = some current ∧
         p.get? 1 = some best ∧
         (k, best) ∈ candidates net goal0 current heading ∧
         (∀ x ∈ candidates net goal0 current heading, k ≤ x.1)) ∧
    (candidates net goal0 current heading = [] →
       planNewPath net goal0 current heading = .ok []) ∧
    (∀ (k : ℕ) (best : String) (p0 : List String),
       pyMinBy (candidates net goal0 current heading) = some (k, best) →
       net.sp current goal0 = some p0 →
       ((p0.length < 2 ∨ p0.get? 1 ≠ some best) →
          ∃ q, net.sp best goal0 = some q ∧
            planNewPath net goal0 current heading = .ok (current :: q)) ∧
       (¬(p0.length < 2 ∨ p0.get? 1 ≠ some best) →
          planNewPath net goal0 current heading = .ok p0)) ∧
    (∀ (dirVec : ℚ → ℚ × ℚ) (st : NavState) (imu : ℚ),
       st.goal = some goal0 → goal0 ≠ "" → current ∈ net.nodes →
       goal0 ≠ current → (st.path = [] ∨ current ∉ st.path) →
       candidates net goal0 current (convertImuToWorldYaw imu) = [] →
       update net dirVec st current imu
         = .ok ({ status := "TURN_AROUND", direction_vector := some (0, 0) },
                { st with path := [] })) := by
  refine ⟨?_, ?_, planNewPath_empty net goal0 current heading, ?_, ?_⟩
  · -- (a)
    intro p hp nb hadjnb hturn
    cases hmin : pyMinBy (candidates net goal0 current heading) with
    | none =>
      have hplan : planNewPath net goal0 current heading = .ok [] := by
        simp only [planNewPath, hmin]
      rw [hplan] at hp
      injection hp with h
      subst h
      simp
    | some m =>
      obtain ⟨p', hp', -, hget⟩ :=
        planNewPath_some net goal0 current heading m.1 m.2 hsp hconn hmin
      rw [hp'] at hp
      injection hp with h
      subst h
      rw [hget]
      intro hcontra
      obtain rfl := Option.some.inj hcontra
      obtain ⟨hmem, -⟩ := pyMinBy_spec hmin
      obtain ⟨-, hturn', -⟩ :=
        (mem_candidates net goal0 current heading m.1 m.2).mp hmem
      exact absurd hturn (not_lt.mpr hturn')
  · -- (b)
    intro hne
    obtain ⟨m, hm⟩ := pyMinBy_isSome hne
    obtain ⟨p, hp, hh, hg⟩ :=
      planNewPath_some net goal0 current heading m.1 m.2 hsp hconn hm
    obtain ⟨hmem, hall⟩ := pyMinBy_spec hm
    exact ⟨m.1, m.2, p, hm, hp, hh, hg, hmem, hall⟩
  · -- (d)
    intro k best p0 hmin hp0
    constructor
    · intro hif
      obtain ⟨hmem, -⟩ := pyMinBy_spec hmin
      obtain ⟨-, -, l, hsl, -⟩ :=
        (mem_candidates net goal0 current heading k best).mp hmem
      obtain ⟨q, hq⟩ := splLen_isSome hsl
      exact ⟨q, hq, by simp only [planNewPath, hmin, hp0, hq, if_pos hif]⟩
    · intro hif
      simp only [planNewPath, hmin, hp0, if_neg hif]
  · -- (e)
    intro dirVec st imu hg hgne hcur hne hreplan hcand
    have h1 : goalTruthy st.goal = true := by
      rw [hg]; simpa [goalTruthy] using hgne
    have h2 : ¬ st.goal = some current := by
      rw [hg]; simpa using hne
    have hplan : (if st.path = [] ∨ current ∉ st.path
        then planNewPath net (st.goal.getD "") current (convertImuToWorldYaw imu)
        else .ok st.path) = .ok ([] : List String) := by
      rw [if_pos hreplan, hg]
      simpa using planNewPath_empty net goal0 current _ hcand
    simp only [update]
    rw [if_neg (by simp [h1]), if_neg (not_not_intro hcur), if_neg h2, hplan]
    rfl

/-- A concrete two-region network (A — B), used to instantiate the planner
theorem. -/
def egNet : Net where
  nodes := ["A", "B"]
  adj := fun a => if a = "A" then ["B"] else if a = "B" then ["A"] else []
  angleTo := fun _ _ => 0
  sp := fun a b =>
    if a = b then some [a]
    else if a = "A" ∧ b = "B" then some ["A", "B"]
    else if a = "B" ∧ b = "A" then some ["B", "A"]
    else none

theorem egNet_hsp : ∀ a b p, egNet.sp a b = some p → p.head? = some a := by
  intro a b p h
  simp only [egNet] at h
  split_ifs at h with h1 h2 h3
  · obtain rfl := Option.some.inj h
    rfl
  · obtain ⟨rfl, rfl⟩ := h2
    obtain rfl := Option.some.inj h
    rfl
  · obtain ⟨rfl, rfl⟩ := h3
    obtain rfl := Option.some.inj h
    rfl

theorem egNet_hconn :
    ∀ a b t, b ∈ egNet.adj a → (egNet.sp b t).isSome → (egNet.sp a t).isSome := by
  intro a b t hb hs
  by_cases ha1 : a = "A"
  · subst ha1
    obtain rfl : b = "B" := by simpa [egNet] using hb
    by_cases ht1 : t = "A"
    · subst ht1; decide
    · by_cases ht2 : t = "B"
      · subst ht2; decide
      · exfalso
        have hnone : egNet.sp "B" t = none := by
          simp only [egNet]
          rw [if_neg (fun hh => ht2 hh.symm), if_neg (by simp),
            if_neg (by simp [ht1])]
        rw [hnone] at hs
        exact absurd hs (by simp)
  · by_cases ha2 : a = "B"
    · subst ha2
      obtain rfl : b = "A" := by simpa [egNet, ha1] using hb
      by_cases ht1 : t = "A"
      · subst ht1; decide
      · by_cases ht2 : t = "B"
        · subst ht2; decide
        · exfalso
          have hnone : egNet.sp "A" t = none := by
            simp only [egNet]
            rw [if_neg (fun hh => ht1 hh.symm), if_neg (by simp [ht2]),
              if_neg (by simp)]
          rw [hnone] at hs
          exact absurd hs (by simp)
    · exact absurd hb (by simp [egNet, ha1, ha2])

/-- Concrete instance of `planner_forward_constraint`: heading 180° makes the
single neighbor fail the 135° filter, so the plan is cleared. -/
theorem planner_forward_constraint_witness :
    planNewPath egNet "B" "A" 180 = .ok [] :=
  (planner_forward_constraint egNet "B" "A" 180 egNet_hsp egNet_hconn).2.2.1
    (by norm_num [candidates, egNet, turnAngle, abs_of_nonneg])

end AutoNav
